import Mathlib

/-!
Verification development for the darshan log parser / aggregation engine
(src/darshan-util/darshan-parser.c) and the DXT runtime buffer manager
(src/darshan-runtime/lib/darshan-dxt.c).

Shallow embedding conventions:
* C `int`/`int64_t` values are modelled as `ℤ` (no arithmetic here ever
  approaches the 64-bit boundary), record ids (`darshan_record_id`, a
  `uint64_t` hash) as `ℕ`, and bitmask fields as `ℕ` with `|||`/`&&&`.
* C `double` timing and bandwidth values are modelled as exact rationals
  `ℚ`; the aggregation code only adds, compares and divides them.
* The per-rank timing arrays `double *rank_cumul_*` are modelled as total
  maps `ℤ → ℚ`; the C code indexes them with the record's raw rank.
-/

namespace Darshan

/-! Section: Option mask (darshan-parser.c lines 30-40 and parse_args) -/

def OPTION_BASE : ℕ := 1 <<< 0
def OPTION_TOTAL : ℕ := 1 <<< 1
def OPTION_PERF : ℕ := 1 <<< 2
def OPTION_FILE : ℕ := 1 <<< 3
def OPTION_SHOW_INCOMPLETE : ℕ := 1 <<< 7
def OPTION_ALL : ℕ :=
  OPTION_BASE ||| OPTION_TOTAL ||| OPTION_PERF ||| OPTION_FILE ||| OPTION_SHOW_INCOMPLETE

/-- The long options accepted by `parse_args`; each carries the mask
    constant that `getopt_long` returns for it. -/
inductive CliFlag
  | all
  | base
  | file
  | perf
  | total
  | showIncomplete
deriving DecidableEq

def CliFlag.optVal : CliFlag → ℕ
  | .all => OPTION_ALL
  | .base => OPTION_BASE
  | .file => OPTION_FILE
  | .perf => OPTION_PERF
  | .total => OPTION_TOTAL
  | .showIncomplete => OPTION_SHOW_INCOMPLETE

/-- Mask computation of `parse_args`: every recognized flag is OR-ed into
    `mask`; afterwards, if no flag was given or only `--show-incomplete`
    was given, `OPTION_BASE` is OR-ed in as the default. -/
def parse_args_mask (flags : List CliFlag) : ℕ :=
  let mask := flags.foldl (fun m f => m ||| f.optVal) 0
  if mask = 0 ∨ mask = OPTION_SHOW_INCOMPLETE then mask ||| OPTION_BASE else mask

/-! Section: Per-file accumulator (hash_entry_t) and posix_accum_file -/

def FILETYPE_SHARED : ℕ := 1 <<< 0
def FILETYPE_UNIQUE : ℕ := 1 <<< 1
def FILETYPE_PARTSHARED : ℕ := 1 <<< 2

/-- The fields of the POSIX module record (`struct darshan_posix_file`)
    that the aggregation paths under proof read: the base record's id and
    rank, the byte counters, and the floating-point time counters. -/
structure darshan_posix_file where
  id : ℕ
  rank : ℤ
  bytes_read : ℤ
  bytes_written : ℤ
  f_meta_time : ℚ
  f_read_time : ℚ
  f_write_time : ℚ
  f_slowest_rank_time : ℚ
deriving DecidableEq

/-- `hash_entry_t` without the intrusive hash link and the module-specific
    `rec_dat` pointer (none of the properties below reads `rec_dat`). -/
structure hash_entry where
  rec_id : ℕ
  type : ℕ
  procs : ℤ
  cumul_io_total_time : ℚ
  slowest_io_total_time : ℚ
deriving DecidableEq

def init_hash_entry (id : ℕ) : hash_entry :=
  { rec_id := id
    type := 0
    procs := 0
    cumul_io_total_time := 0
    slowest_io_total_time := 0 }

/-- `posix_accum_file` (darshan-parser.c lines 811-867), minus the
    `rec_dat` counter merge: bump `procs`, update the slowest time (a
    `rank == -1` record overwrites it with its authoritative value),
    classify the file type, and accumulate the cumulative I/O time.
    `type &&& (2^64 - 1 - FILETYPE_UNIQUE)` is the 64-bit
    `type & ~FILETYPE_UNIQUE`. -/
def posix_accum_file (pfile : darshan_posix_file) (hfile : hash_entry)
    (nprocs : ℕ) : hash_entry :=
  let h1 := { hfile with procs := hfile.procs + 1 }
  let h2 :=
    if pfile.rank = -1 then
      { h1 with slowest_io_total_time := pfile.f_slowest_rank_time }
    else
      { h1 with slowest_io_total_time := max h1.slowest_io_total_time (pfile.f_meta_time + pfile.f_read_time + pfile.f_write_time) }
  let h3 :=
    if pfile.rank = -1 then
      { h2 with procs := (nprocs : ℤ), type := h2.type ||| FILETYPE_SHARED }
    else if h2.procs > 1 then
      { h2 with type :=
          (h2.type &&& (2 ^ 64 - 1 - FILETYPE_UNIQUE)) ||| FILETYPE_PARTSHARED }
    else
      { h2 with type := h2.type ||| FILETYPE_UNIQUE }
  { h3 with cumul_io_total_time := h3.cumul_io_total_time +
      (pfile.f_meta_time + pfile.f_read_time + pfile.f_write_time) }

/-- Folding a whole list of POSIX records for one file id into its
    per-file accumulator, in stream order. -/
def accum_file_list (nprocs : ℕ) (rs : List darshan_posix_file)
    (h : hash_entry) : hash_entry :=
  rs.foldl (fun h p => posix_accum_file p h nprocs) h

/-! Section: Performance accumulator (perf_data_t), posix_accum_perf, calc_perf -/

structure perf_data where
  total_bytes : ℤ
  slowest_rank_io_total_time : ℚ
  slowest_rank_rw_only_time : ℚ
  slowest_rank_meta_only_time : ℚ
  slowest_rank_rank : ℤ
  shared_io_total_time_by_slowest : ℚ
  agg_perf_by_slowest : ℚ
  agg_time_by_slowest : ℚ
  rank_cumul_io_total_time : ℤ → ℚ
  rank_cumul_rw_only_time : ℤ → ℚ
  rank_cumul_md_only_time : ℤ → ℚ

/-- `perf_data_t` after `memset(&pdata, 0, ...)` and zeroing of the three
    per-rank arrays. -/
def init_perf_data : perf_data :=
  { total_bytes := 0
    slowest_rank_io_total_time := 0
    slowest_rank_rw_only_time := 0
    slowest_rank_meta_only_time := 0
    slowest_rank_rank := 0
    shared_io_total_time_by_slowest := 0
    agg_perf_by_slowest := 0
    agg_time_by_slowest := 0
    rank_cumul_io_total_time := fun _ => 0
    rank_cumul_rw_only_time := fun _ => 0
    rank_cumul_md_only_time := fun _ => 0 }

/-- `v[i] += t` on a per-rank array modelled as a total map. -/
def updVec (v : ℤ → ℚ) (i : ℤ) (t : ℚ) : ℤ → ℚ :=
  fun j => if j = i then v j + t else v j

/-- `posix_accum_perf` (darshan-parser.c lines 966-1002): accumulate the
    byte total; a `rank == -1` record adds its slowest-rank time to the
    shared-file total, any other record adds its times into the per-rank
    arrays at index `base_rec.rank` — the source performs no bounds check
    on that index. -/
def posix_accum_perf (pfile : darshan_posix_file) (pdata : perf_data) :
    perf_data :=
  let p1 := { pdata with total_bytes :=
      pdata.total_bytes + pfile.bytes_read + pfile.bytes_written }
  if pfile.rank = -1 then
    { p1 with shared_io_total_time_by_slowest :=
        p1.shared_io_total_time_by_slowest + pfile.f_slowest_rank_time }
  else
    { p1 with
      rank_cumul_io_total_time := updVec p1.rank_cumul_io_total_time pfile.rank
        (pfile.f_meta_time + pfile.f_read_time + pfile.f_write_time)
      rank_cumul_md_only_time := updVec p1.rank_cumul_md_only_time pfile.rank
        pfile.f_meta_time
      rank_cumul_rw_only_time := updVec p1.rank_cumul_rw_only_time pfile.rank
        (pfile.f_read_time + pfile.f_write_time) }

/-- One iteration of the slowest-rank scan in `calc_perf`: strict `>`, so
    on ties the first-seen (lowest) rank wins. -/
def calc_perf_step (pdata : perf_data) (i : ℕ) : perf_data :=
  if pdata.rank_cumul_io_total_time i > pdata.slowest_rank_io_total_time then
    { pdata with
      slowest_rank_io_total_time := pdata.rank_cumul_io_total_time i
      slowest_rank_meta_only_time := pdata.rank_cumul_md_only_time i
      slowest_rank_rw_only_time := pdata.rank_cumul_rw_only_time i
      slowest_rank_rank := (i : ℤ) }
  else pdata

/-- `calc_perf` (darshan-parser.c lines 1250-1274): scan ranks
    `0 .. nprocs-1` for the slowest, then — guarded by the C truth test
    `if (slowest + shared)`, i.e. the sum being nonzero — compute the
    aggregate bandwidth, and finally (unconditionally) the aggregate
    time. -/
def calc_perf (pdata : perf_data) (nprocs : ℕ) : perf_data :=
  let p1 := (List.range nprocs).foldl calc_perf_step pdata
  let p2 :=
    if p1.slowest_rank_io_total_time + p1.shared_io_total_time_by_slowest ≠ 0 then
      { p1 with agg_perf_by_slowest :=
          ((p1.total_bytes : ℚ) / 1048576) /
            (p1.slowest_rank_io_total_time + p1.shared_io_total_time_by_slowest) }
    else p1
  { p2 with agg_time_by_slowest :=
      p2.slowest_rank_io_total_time + p2.shared_io_total_time_by_slowest }

/-! Section: Whole-module record-stream folding (main loop, lines 554-596) -/

/-- `HASH_FIND` followed by lazy creation and in-place accumulation:
    apply `g` to the entry for `id`, creating a zeroed entry first when
    the id has not been seen. -/
def upsert (id : ℕ) (g : hash_entry → hash_entry) :
    List (ℕ × hash_entry) → List (ℕ × hash_entry)
  | [] => [(id, g (init_hash_entry id))]
  | (k, v) :: t =>
    if k = id then (k, g v) :: t else (k, v) :: upsert id g t

/-- The mutable aggregation state of one module pass in `main`: the
    per-file hash, the job-wide totals accumulator, and the performance
    accumulator. -/
structure engine_state where
  file_hash_table : List (ℕ × hash_entry)
  total : hash_entry
  pdata : perf_data

def init_engine_state : engine_state :=
  { file_hash_table := []
    total := init_hash_entry 0
    pdata := init_perf_data }

/-- One iteration of the record loop in `main` for a POSIX record:
    `posix_accum_file` into the totals accumulator and into the (lazily
    created) per-file entry, then `posix_accum_perf`. -/
def fold_posix_record (nprocs : ℕ) (s : engine_state)
    (p : darshan_posix_file) : engine_state :=
  { file_hash_table := upsert p.id (fun h => posix_accum_file p h nprocs) s.file_hash_table
    total := posix_accum_file p s.total nprocs
    pdata := posix_accum_perf p s.pdata }

def fold_posix_stream (nprocs : ℕ) (rs : List darshan_posix_file)
    (s : engine_state) : engine_state :=
  rs.foldl (fold_posix_record nprocs) s

/-- Sum of `cumul_io_total_time` over the per-file hash. -/
def sumCumul (l : List (ℕ × hash_entry)) : ℚ :=
  (l.map (fun kv => kv.2.cumul_io_total_time)).sum

/-- Sum of a per-rank timing array over the rank indices `0 .. n-1` that
    `main` allocated. -/
def vecSum (v : ℤ → ℚ) (n : ℕ) : ℚ :=
  ∑ i ∈ Finset.range n, v (i : ℤ)

/-! Section: The per-module loop of main (lines 399-724) restricted to pdata -/

/-- One module's record stream as seen by the aggregation loop: the
    records that were decoded before the stream ended, and whether it
    ended in a decode error (`log_get_record` returning -1) instead of
    end-of-stream. -/
structure module_stream where
  recs : List darshan_posix_file
  decode_error : Bool

/-- What one iteration of the module loop in `main` does to `pdata`:
    fold every decoded record, then — only when the stream ended cleanly —
    reset `pdata` and re-zero the per-rank arrays (lines 703-716).  On a
    decode error `main` executes `continue` (lines 597-598), skipping the
    reset. -/
def process_module (p : perf_data) (m : module_stream) :
    perf_data :=
  let p1 := m.recs.foldl (fun acc r => posix_accum_perf r acc) p
  if m.decode_error then p1 else init_perf_data

/-- `pdata` as it stands when the module loop reaches module index `k`
    (i.e. before any record of module `k` is folded). -/
def pdata_before_module (ms : List module_stream) (k : ℕ) :
    perf_data :=
  (ms.take k).foldl process_module init_perf_data

/-! Section: Mount-table resolution (main, lines 517-539) -/

structure mnt_info where
  mnt_path : List Char
  mnt_type : List Char
deriving DecidableEq

/-- `strncmp(mnt_path, rec_name, strlen(mnt_path)) == 0`: the mount path
    is an initial segment of the record's path. -/
def is_path_match : List Char → List Char → Bool
  | [], _ => true
  | _ :: _, [] => false
  | a :: as, b :: bs => a = b && is_path_match as bs

/-- The linear scan of `mnt_data_array` in `main`: the first entry whose
    mount path matches wins (the loop `break`s). -/
def find_mount (name : List Char) : List mnt_info → Option mnt_info
  | [] => none
  | m :: t => if is_path_match m.mnt_path name then some m else find_mount name t

/-- `(mnt_pt, fs_type)` for a record path: first matching mount entry, or
    `("UNKNOWN", "UNKNOWN")` when no mount path matches. -/
def resolve_mount (name : List Char) (tbl : List mnt_info) :
    List Char × List Char :=
  match find_mount name tbl with
  | some m => (m.mnt_path, m.mnt_type)
  | none => ("UNKNOWN".data, "UNKNOWN".data)

/-- Modelled from the spec: the mount table handed to the parser by
    `darshan_log_get_mounts` (darshan-logutils, not under src/) lists
    entries in order of non-increasing mount-path length, which is what
    lets the parser's first-match scan realize the spec's "longest-prefix
    match of `path` against the mount table". -/
def mounts_longest_first (tbl : List mnt_info) : Prop :=
  tbl.Pairwise (fun a b => b.mnt_path.length ≤ a.mnt_path.length)

/-! Section: DXT buffer manager (darshan-runtime/lib/darshan-dxt.c)

The byte sizes `sizeof(segment_info)` and `sizeof(struct dxt_file_record)`
are platform constants from darshan-dxt-log-format.h (not under src/);
all definitions take them as parameters `segSz` and `fileSz`. -/

def DXT_IO_TRACE_MEM_MAX : ℤ := 4 * 1024 * 1024

def IO_TRACE_BUF_SIZE : ℤ := 64

/-- The per-file DXT state: the record's segment counts
    (`dxt_file_record`) and the allocated buffer capacities
    (`dxt_file_record_ref`), in numbers of segments. -/
structure dxt_file_rec where
  write_count : ℤ
  read_count : ℤ
  write_available_buf : ℤ
  read_available_buf : ℤ
deriving DecidableEq

def init_dxt_file_rec : dxt_file_rec :=
  { write_count := 0, read_count := 0
    write_available_buf := 0, read_available_buf := 0 }

/-- The increment (in segments) that `check_wr_trace_buf` settles on:
    zero when no growth is needed, otherwise the doubling request clamped
    to what `dxt_mem_remaining` can pay for. -/
def wr_inc (segSz mem : ℤ) (r : dxt_file_rec) : ℤ :=
  if r.write_count ≥ r.write_available_buf then
    let inc0 := if r.write_available_buf = 0 then IO_TRACE_BUF_SIZE
                else r.write_available_buf
    if inc0 * segSz > mem then mem / segSz else inc0
  else 0

/-- `dxt_mem_remaining` after `check_wr_trace_buf`. -/
def check_wr_mem (segSz mem : ℤ) (r : dxt_file_rec) : ℤ :=
  mem - wr_inc segSz mem r * segSz

/-- The file record after `check_wr_trace_buf`: the write buffer grows by
    the settled increment only when that increment is positive. -/
def check_wr_rec (segSz mem : ℤ) (r : dxt_file_rec) : dxt_file_rec :=
  if wr_inc segSz mem r > 0 then
    { r with write_available_buf := r.write_available_buf + wr_inc segSz mem r }
  else r

/-- Mirror of `wr_inc` for `check_rd_trace_buf`. -/
def rd_inc (segSz mem : ℤ) (r : dxt_file_rec) : ℤ :=
  if r.read_count ≥ r.read_available_buf then
    let inc0 := if r.read_available_buf = 0 then IO_TRACE_BUF_SIZE
                else r.read_available_buf
    if inc0 * segSz > mem then mem / segSz else inc0
  else 0

def check_rd_mem (segSz mem : ℤ) (r : dxt_file_rec) : ℤ :=
  mem - rd_inc segSz mem r * segSz

def check_rd_rec (segSz mem : ℤ) (r : dxt_file_rec) : dxt_file_rec :=
  if rd_inc segSz mem r > 0 then
    { r with read_available_buf := r.read_available_buf + rd_inc segSz mem r }
  else r

/-- `darshan_lookup_record_ref` on an id-keyed table. -/
def findRec (id : ℕ) : List (ℕ × dxt_file_rec) → Option dxt_file_rec
  | [] => none
  | (k, v) :: t => if k = id then some v else findRec id t

/-- Store back the (in-place mutated) record for `id`. -/
def setRec (id : ℕ) (r : dxt_file_rec) :
    List (ℕ × dxt_file_rec) → List (ℕ × dxt_file_rec)
  | [] => []
  | (k, v) :: t => if k = id then (k, r) :: t else (k, v) :: setRec id r t

/-- The process-wide DXT state: the two per-module record tables of
    `dxt_posix_runtime` / `dxt_mpiio_runtime`, the shared global budget
    `dxt_mem_remaining`, and the one-shot disable flag. -/
structure dxt_state where
  posix_recs : List (ℕ × dxt_file_rec)
  mpiio_recs : List (ℕ × dxt_file_rec)
  dxt_mem_remaining : ℤ
  instr_disabled : Bool

def init_dxt_state : dxt_state :=
  { posix_recs := []
    mpiio_recs := []
    dxt_mem_remaining := DXT_IO_TRACE_MEM_MAX
    instr_disabled := false }

/-- `dxt_posix_track_new_file_record` / `dxt_mpiio_track_new_file_record`
    on the success path: refuse when the remaining budget is smaller than
    one file record, otherwise debit `fileSz` and hand back a zeroed
    record.  (The malloc/ref-registration failure paths also refuse and
    debit nothing.) -/
def track_new_file_record (fileSz mem : ℤ) : Option ℤ :=
  if mem < fileSz then none else some (mem - fileSz)

/-- The common body of `dxt_posix_write` / `dxt_mpiio_write` after the
    record has been resolved: ensure buffer room, then append — unless
    the grown capacity still equals `write_count`, in which case the call
    backs out without appending. -/
def dxt_write_body (segSz mem : ℤ) (r : dxt_file_rec) : ℤ × dxt_file_rec :=
  let mem' := check_wr_mem segSz mem r
  let r' := check_wr_rec segSz mem r
  if r'.write_count = r'.write_available_buf then (mem', r')
  else (mem', { r' with write_count := r'.write_count + 1 })

/-- Mirror of `dxt_write_body` for the read direction. -/
def dxt_read_body (segSz mem : ℤ) (r : dxt_file_rec) : ℤ × dxt_file_rec :=
  let mem' := check_rd_mem segSz mem r
  let r' := check_rd_rec segSz mem r
  if r'.read_count = r'.read_available_buf then (mem', r')
  else (mem', { r' with read_count := r'.read_count + 1 })

/-- Resolve-or-create plus write-append on one record table: the shape
    shared by `dxt_posix_write` and `dxt_mpiio_write`.  Returns the new
    table and the new `dxt_mem_remaining`. -/
def dxt_table_write (segSz fileSz : ℤ) (id : ℕ)
    (l : List (ℕ × dxt_file_rec)) (mem : ℤ) :
    List (ℕ × dxt_file_rec) × ℤ :=
  match findRec id l with
  | some r =>
    let mr := dxt_write_body segSz mem r
    (setRec id mr.2 l, mr.1)
  | none =>
    match track_new_file_record fileSz mem with
    | none => (l, mem)
    | some mem1 =>
      let mr := dxt_write_body segSz mem1 init_dxt_file_rec
      ((id, mr.2) :: l, mr.1)

/-- Mirror of `dxt_table_write` for the read direction. -/
def dxt_table_read (segSz fileSz : ℤ) (id : ℕ)
    (l : List (ℕ × dxt_file_rec)) (mem : ℤ) :
    List (ℕ × dxt_file_rec) × ℤ :=
  match findRec id l with
  | some r =>
    let mr := dxt_read_body segSz mem r
    (setRec id mr.2 l, mr.1)
  | none =>
    match track_new_file_record fileSz mem with
    | none => (l, mem)
    | some mem1 =>
      let mr := dxt_read_body segSz mem1 init_dxt_file_rec
      ((id, mr.2) :: l, mr.1)

/-- `dxt_posix_write` (darshan-dxt.c lines 205-238): short-circuit when
    disabled; resolve or create the file record (creation may be refused
    by the budget); grow the write buffer under the budget; append the
    segment when room exists. -/
def dxt_posix_write (segSz fileSz : ℤ) (id : ℕ) (s : dxt_state) : dxt_state :=
  if s.instr_disabled then s else
    let lm := dxt_table_write segSz fileSz id s.posix_recs s.dxt_mem_remaining
    { s with posix_recs := lm.1, dxt_mem_remaining := lm.2 }

/-- `dxt_posix_read` (darshan-dxt.c lines 240-272). -/
def dxt_posix_read (segSz fileSz : ℤ) (id : ℕ) (s : dxt_state) : dxt_state :=
  if s.instr_disabled then s else
    let lm := dxt_table_read segSz fileSz id s.posix_recs s.dxt_mem_remaining
    { s with posix_recs := lm.1, dxt_mem_remaining := lm.2 }

/-- `dxt_mpiio_write` (darshan-dxt.c lines 274-306). -/
def dxt_mpiio_write (segSz fileSz : ℤ) (id : ℕ) (s : dxt_state) : dxt_state :=
  if s.instr_disabled then s else
    let lm := dxt_table_write segSz fileSz id s.mpiio_recs s.dxt_mem_remaining
    { s with mpiio_recs := lm.1, dxt_mem_remaining := lm.2 }

/-- `dxt_mpiio_read` (darshan-dxt.c lines 308-340). -/
def dxt_mpiio_read (segSz fileSz : ℤ) (id : ℕ) (s : dxt_state) : dxt_state :=
  if s.instr_disabled then s else
    let lm := dxt_table_read segSz fileSz id s.mpiio_recs s.dxt_mem_remaining
    { s with mpiio_recs := lm.1, dxt_mem_remaining := lm.2 }

/-- One DXT trace entry point being invoked on a record id. -/
inductive dxt_op
  | pw (id : ℕ)
  | pr (id : ℕ)
  | mw (id : ℕ)
  | mr (id : ℕ)
deriving DecidableEq

def dxt_step (segSz fileSz : ℤ) (s : dxt_state) : dxt_op → dxt_state
  | .pw id => dxt_posix_write segSz fileSz id s
  | .pr id => dxt_posix_read segSz fileSz id s
  | .mw id => dxt_mpiio_write segSz fileSz id s
  | .mr id => dxt_mpiio_read segSz fileSz id s

def dxt_run (segSz fileSz : ℤ) (ops : List dxt_op) (s : dxt_state) : dxt_state :=
  ops.foldl (dxt_step segSz fileSz) s

/-- Every buffer capacity recorded in a DXT table is non-negative. -/
def recs_nonneg (l : List (ℕ × dxt_file_rec)) : Prop :=
  ∀ p ∈ l, 0 ≤ p.2.write_available_buf ∧ 0 ≤ p.2.read_available_buf

/-! Section: Sample inputs used for witnesses and counterexamples -/

/-- A per-rank POSIX record from rank 0 with 1.0s of metadata time. -/
def recRank0 : darshan_posix_file :=
  { id := 7, rank := 0, bytes_read := 1024, bytes_written := 0
    f_meta_time := 1, f_read_time := 0, f_write_time := 0
    f_slowest_rank_time := 0 }

/-- A shared (`rank == -1`) POSIX record whose per-rank time counters sum
    to 1.0s but whose authoritative slowest-rank time is 2.0s. -/
def recShared : darshan_posix_file :=
  { id := 7, rank := -1, bytes_read := 0, bytes_written := 0
    f_meta_time := 1, f_read_time := 0, f_write_time := 0
    f_slowest_rank_time := 2 }

/-- A shared POSIX record whose slowest-rank time agrees with the sum of
    its time counters. -/
def recSharedBal : darshan_posix_file :=
  { id := 9, rank := -1, bytes_read := 0, bytes_written := 2000000
    f_meta_time := 1, f_read_time := 0, f_write_time := 2
    f_slowest_rank_time := 3 }

/-- A per-rank POSIX record carrying the out-of-range rank 5. -/
def recRank5 : darshan_posix_file :=
  { id := 11, rank := 5, bytes_read := 0, bytes_written := 0
    f_meta_time := 1, f_read_time := 0, f_write_time := 0
    f_slowest_rank_time := 0 }

/-- A performance accumulator with 2 MiB of traffic accounted to shared
    files, as left by a module's `accum_perf` passes. -/
def sample_perf_data : perf_data :=
  { init_perf_data with total_bytes := 2097152
                        shared_io_total_time_by_slowest := 2 }

/-- A DXT file record whose write buffer is exactly full at 64
    segments. -/
def sample_dxt_rec : dxt_file_rec :=
  { write_count := 64
    read_count := 0
    write_available_buf := 64
    read_available_buf := 0 }

/-- A DXT state whose POSIX record 1 has a full write buffer while fewer
    bytes than one `segment_info` remain in the global budget. -/
def sample_dxt_state : dxt_state :=
  { posix_recs := [(1, sample_dxt_rec)]
    mpiio_recs := []
    dxt_mem_remaining := 10
    instr_disabled := false }

/-- A two-entry mount table sorted with the longest mount path first. -/
def sample_mounts : List mnt_info :=
  [ { mnt_path := "/home/user".data, mnt_type := "nfs".data }
  , { mnt_path := "/home".data, mnt_type := "ext4".data } ]

/-! Part: Theorems -/

/-! Section: Helper lemmas on posix_accum_file -/

theorem accum_file_cumul (p : darshan_posix_file) (h : hash_entry) (n : ℕ) :
    (posix_accum_file p h n).cumul_io_total_time
      = h.cumul_io_total_time
        + (p.f_meta_time + p.f_read_time + p.f_write_time) := by
  by_cases hr : p.rank = -1
  · simp [posix_accum_file, hr]
  · by_cases hp : h.procs + 1 > 1 <;> simp [posix_accum_file, hr, hp]

theorem accum_file_procs_shared (p : darshan_posix_file) (h : hash_entry)
    (n : ℕ) (hr : p.rank = -1) : (posix_accum_file p h n).procs = (n : ℤ) := by
  simp [posix_accum_file, hr]

/-! Section: C4 -/

/-- Claim C4, counterexample: with `nprocs = 2`, folding the shared record and
    then a per-rank record for the same file leaves `procs = 3 ≠ nprocs`,
    because the later per-rank fold increments `procs` past the value the
    shared fold pinned.  This refutes the claim's "regardless of how many
    other records for that id were folded before or after". -/
theorem C4_procs_counterexample :
    (accum_file_list 2 [recShared, recRank0] (init_hash_entry 7)).procs ≠ (2 : ℤ) := by
  decide

/-- Claim C4, amended: a per-file accumulator whose **last** folded record is a
    `rank == -1` record has `procs = nprocs` (any records folded before
    it are irrelevant); per-rank records folded after the last shared
    record push `procs` past `nprocs` again. -/
theorem C4_procs_amended (n : ℕ) (rs : List darshan_posix_file)
    (p : darshan_posix_file) (h₀ : hash_entry) (hp : p.rank = -1) :
    (accum_file_list n (rs ++ [p]) h₀).procs = (n : ℤ) := by
  unfold accum_file_list
  rw [List.foldl_append]
  simp only [List.foldl_cons, List.foldl_nil]
  exact accum_file_procs_shared p _ n hp

/-- Claim C4 witness: instantiation of the amended claim at `nprocs = 2` with a
    per-rank record folded before the shared one. -/
theorem C4_procs_witness :
    (accum_file_list 2 ([recRank0] ++ [recShared]) (init_hash_entry 7)).procs = (2 : ℤ) :=
  C4_procs_amended 2 [recRank0] recShared (init_hash_entry 7) (by decide)

/-! Section: C2 -/

/-- Claim C2: `posix_accum_perf` performs **no** bounds check on a per-rank
    record's rank.  At the failing input (a record with rank 5 under
    `nprocs = 2`) the code adds the record's time into the per-rank
    arrays at index 5 — in C an out-of-bounds write past the
    `nprocs`-sized allocations — instead of reporting and skipping the
    record as the claim demands. -/
theorem C2_unchecked_rank_write :
    ((posix_accum_perf recRank5 init_perf_data).rank_cumul_io_total_time 5 = 1
      ∧ init_perf_data.rank_cumul_io_total_time 5 = 0)
    ∧ ¬ (0 ≤ recRank5.rank ∧ recRank5.rank < (2 : ℤ)) := by
  refine ⟨⟨?_, rfl⟩, by decide⟩
  norm_num [posix_accum_perf, init_perf_data, recRank5, updVec]

/-! Section: C8 -/

/-- Claim C8, counterexample: when module 0's stream ends in a decode error,
    `main`'s `continue` (darshan-parser.c:597-598) skips the reset block
    (lines 703-716), so the per-rank timing vector still carries module
    0's 1.0s for rank 0 when module 1's records start folding.  This
    refutes the claim that the vectors are zeroed between modules even
    after a `DecodeError`. -/
theorem C8_reset_counterexample :
    (pdata_before_module
        [ { recs := [recRank0], decode_error := true }
        , { recs := [], decode_error := false } ]
        1).rank_cumul_io_total_time 0 ≠ 0 := by
  norm_num [pdata_before_module, process_module, posix_accum_perf,
    init_perf_data, recRank0, updVec]

/-- Claim C8, amended: the per-rank timing vectors (and the rest of `pdata`)
    are reset before the next module **whenever the previous module's
    stream was processed to completion**; when a module aborts with a
    decode error, `main`'s `continue` skips the reset and that module's
    per-rank times persist into the next module's aggregation. -/
theorem C8_reset_amended (p : perf_data) (m : module_stream)
    (hok : m.decode_error = false) (j : ℤ) :
    (process_module p m).rank_cumul_io_total_time j = 0
    ∧ (process_module p m).rank_cumul_rw_only_time j = 0
    ∧ (process_module p m).rank_cumul_md_only_time j = 0 := by
  simp [process_module, hok, init_perf_data]

/-- Claim C8 witness: a cleanly finishing module with one folded record leaves
    zeroed per-rank vectors for the next module. -/
theorem C8_reset_witness :
    (process_module init_perf_data { recs := [recRank0], decode_error := false }).rank_cumul_io_total_time 0 = 0
    ∧ (process_module init_perf_data { recs := [recRank0], decode_error := false }).rank_cumul_rw_only_time 0 = 0
    ∧ (process_module init_perf_data { recs := [recRank0], decode_error := false }).rank_cumul_md_only_time 0 = 0 :=
  C8_reset_amended init_perf_data { recs := [recRank0], decode_error := false } rfl 0

/-! Section: C1 -/

theorem testBit_mask_unique_zero :
    Nat.testBit (2 ^ 64 - 1 - FILETYPE_UNIQUE) 1 = false := by decide

theorem testBit_mask_unique_keep0 :
    Nat.testBit (2 ^ 64 - 1 - FILETYPE_UNIQUE) 0 = true := by decide

/-- A per-rank record never touches the SHARED bit. -/
theorem accum_file_bit0_rank (p : darshan_posix_file) (h : hash_entry)
    (n : ℕ) (hr : ¬ p.rank = -1) :
    ((posix_accum_file p h n).type).testBit 0 = h.type.testBit 0 := by
  by_cases hp : h.procs + 1 > 1 <;>
    simp [posix_accum_file, hr, hp, Nat.testBit_lor, Nat.testBit_land,
      testBit_mask_unique_keep0, FILETYPE_PARTSHARED, FILETYPE_UNIQUE]

/-- Once the accumulator has seen a record (`procs ≥ 1`) with the UNIQUE
    bit clear, every further fold keeps `procs ≥ 1` and the UNIQUE bit
    clear (with `nprocs ≥ 1`); a shared record establishes the same state
    from any accumulator whose UNIQUE bit is clear. -/
theorem accum_file_bit1_inv (p : darshan_posix_file) (h : hash_entry)
    (n : ℕ) (hn : 1 ≤ n) (hb : h.type.testBit 1 = false)
    (hpr : 1 ≤ h.procs ∨ p.rank = -1) :
    1 ≤ (posix_accum_file p h n).procs
    ∧ ((posix_accum_file p h n).type).testBit 1 = false := by
  by_cases hr : p.rank = -1
  · constructor
    · simp only [accum_file_procs_shared p h n hr]
      exact_mod_cast hn
    · simp [posix_accum_file, hr, Nat.testBit_lor, hb, FILETYPE_SHARED]
      decide
  · have hp1 : 1 ≤ h.procs := by
      rcases hpr with hp | hcontra
      · exact hp
      · exact absurd hcontra hr
    have hp : h.procs + 1 > 1 := by omega
    constructor
    · simp [posix_accum_file, hr, hp]
      omega
    · simp [posix_accum_file, hr, hp, Nat.testBit_lor, Nat.testBit_land,
        testBit_mask_unique_zero, hb, FILETYPE_PARTSHARED, FILETYPE_UNIQUE]
      decide

/-- Folding any list of records preserves the `procs ≥ 1` /
    UNIQUE-bit-clear state. -/
theorem accum_file_list_bit1_inv (n : ℕ) (hn : 1 ≤ n)
    (rs : List darshan_posix_file) :
    ∀ h : hash_entry, 1 ≤ h.procs → h.type.testBit 1 = false →
      1 ≤ (accum_file_list n rs h).procs
      ∧ ((accum_file_list n rs h).type).testBit 1 = false := by
  induction rs with
  | nil => intro h hp hb; exact ⟨hp, hb⟩
  | cons p t ih =>
    intro h hp hb
    have step := accum_file_bit1_inv p h n hn hb (Or.inl hp)
    simpa [accum_file_list] using ih (posix_accum_file p h n) step.1 step.2

/-- A stream with no shared record never sets the SHARED bit. -/
theorem accum_file_list_bit0 (n : ℕ) (rs : List darshan_posix_file)
    (hall : ∀ p ∈ rs, ¬ p.rank = -1) :
    ∀ h : hash_entry,
      ((accum_file_list n rs h).type).testBit 0 = h.type.testBit 0 := by
  induction rs with
  | nil => intro h; rfl
  | cons p t ih =>
    intro h
    have hp : ¬ p.rank = -1 := hall p (by simp)
    have ht : ∀ q ∈ t, ¬ q.rank = -1 := fun q hq => hall q (by simp [hq])
    calc ((accum_file_list n (p :: t) h).type).testBit 0
        = ((accum_file_list n t (posix_accum_file p h n)).type).testBit 0 := rfl
      _ = ((posix_accum_file p h n).type).testBit 0 := ih ht _
      _ = h.type.testBit 0 := accum_file_bit0_rank p h n hp

/-- Claim C1, counterexample: with `nprocs = 2`, folding a per-rank record and
    then the shared record for the same file sets **both** the SHARED bit
    and the UNIQUE bit (`type = 3`): the `rank == -1` branch of
    `posix_accum_file` only ORs in SHARED and never clears UNIQUE.  This
    refutes the claimed mutual exclusion for arbitrary fold orders. -/
theorem C1_shared_unique_counterexample :
    ((accum_file_list 2 [recRank0, recShared] (init_hash_entry 7)).type).testBit 0 = true
    ∧ ((accum_file_list 2 [recRank0, recShared] (init_hash_entry 7)).type).testBit 1 = true := by
  decide

/-- Claim C1, amended: SHARED and UNIQUE are mutually exclusive provided no
    per-rank record is folded before the first `rank == -1` record (and
    `nprocs ≥ 1`): either the stream has no shared record at all (then
    SHARED is never set), or its first record is the shared one (then
    UNIQUE can never be set).  When a per-rank record precedes the shared
    record, both bits end up set. -/
theorem C1_shared_unique_amended (n : ℕ) (rs : List darshan_posix_file)
    (hn : 1 ≤ n)
    (horder : (∀ p ∈ rs, ¬ p.rank = -1)
      ∨ ∃ r₀ rest, rs = r₀ :: rest ∧ r₀.rank = -1) :
    ((accum_file_list n rs (init_hash_entry 7)).type).testBit 0 = true →
    ((accum_file_list n rs (init_hash_entry 7)).type).testBit 1 = false := by
  rcases horder with hall | ⟨r₀, rest, hrs, hr₀⟩
  · intro hbit
    rw [accum_file_list_bit0 n rs hall] at hbit
    simp [init_hash_entry] at hbit
  · intro _
    subst hrs
    have step := accum_file_bit1_inv r₀ (init_hash_entry 7) n hn
      (by simp [init_hash_entry]) (Or.inr hr₀)
    have : accum_file_list n (r₀ :: rest) (init_hash_entry 7)
        = accum_file_list n rest (posix_accum_file r₀ (init_hash_entry 7) n) := rfl
    rw [this]
    exact (accum_file_list_bit1_inv n hn rest _ step.1 step.2).2

/-- Claim C1 witness: amended claim instantiated with the shared record folded
    first, then a per-rank record, under `nprocs = 2`. -/
theorem C1_shared_unique_witness :
    ((accum_file_list 2 [recShared, recRank0] (init_hash_entry 7)).type).testBit 1 = false :=
  C1_shared_unique_amended 2 [recShared, recRank0] (by decide)
    (Or.inr ⟨recShared, [recRank0], rfl, by decide⟩) (by decide)

/-! Section: C7 -/

/-- The slowest-rank scan touches only the four `slowest_rank_*` output
    fields. -/
theorem calc_loop_fields (l : List ℕ) :
    ∀ p : perf_data,
      (l.foldl calc_perf_step p).total_bytes = p.total_bytes
      ∧ (l.foldl calc_perf_step p).shared_io_total_time_by_slowest
          = p.shared_io_total_time_by_slowest
      ∧ (l.foldl calc_perf_step p).agg_perf_by_slowest = p.agg_perf_by_slowest := by
  induction l with
  | nil => intro p; exact ⟨rfl, rfl, rfl⟩
  | cons i t ih =>
    intro p
    have hstep : (calc_perf_step p i).total_bytes = p.total_bytes
        ∧ (calc_perf_step p i).shared_io_total_time_by_slowest
            = p.shared_io_total_time_by_slowest
        ∧ (calc_perf_step p i).agg_perf_by_slowest = p.agg_perf_by_slowest := by
      unfold calc_perf_step
      split <;> exact ⟨rfl, rfl, rfl⟩
    have h := ih (calc_perf_step p i)
    simp only [List.foldl_cons]
    exact ⟨h.1.trans hstep.1, h.2.1.trans hstep.2.1, h.2.2.trans hstep.2.2⟩

/-- Claim C7: `calc_perf` always sets `agg_time_by_slowest` to
    `slowest_rank_io_total_time + shared_io_total_time_by_slowest`; it
    divides for `agg_perf_by_slowest` only under the guard that the sum
    is nonzero (so in particular only when the two summands are not both
    zero), and when both summands are zero no division happens and a
    previously zero `agg_perf_by_slowest` stays zero. -/
theorem C7_calc_perf_guard (pdata : perf_data) (n : ℕ) :
    (calc_perf pdata n).agg_time_by_slowest
      = (calc_perf pdata n).slowest_rank_io_total_time
        + (calc_perf pdata n).shared_io_total_time_by_slowest
    ∧ ((calc_perf pdata n).slowest_rank_io_total_time
          + (calc_perf pdata n).shared_io_total_time_by_slowest ≠ 0 →
        (calc_perf pdata n).agg_perf_by_slowest
          = ((pdata.total_bytes : ℚ) / 1048576)
            / ((calc_perf pdata n).slowest_rank_io_total_time
               + (calc_perf pdata n).shared_io_total_time_by_slowest))
    ∧ ((calc_perf pdata n).slowest_rank_io_total_time = 0
        ∧ (calc_perf pdata n).shared_io_total_time_by_slowest = 0
        ∧ pdata.agg_perf_by_slowest = 0 →
        (calc_perf pdata n).agg_perf_by_slowest = 0) := by
  have hl := calc_loop_fields (List.range n) pdata
  have hunfold : calc_perf pdata n =
      (if ((List.range n).foldl calc_perf_step pdata).slowest_rank_io_total_time
            + ((List.range n).foldl calc_perf_step pdata).shared_io_total_time_by_slowest ≠ 0 then
        { (List.range n).foldl calc_perf_step pdata with
          agg_perf_by_slowest :=
            ((((List.range n).foldl calc_perf_step pdata).total_bytes : ℚ) / 1048576)
              / (((List.range n).foldl calc_perf_step pdata).slowest_rank_io_total_time
                 + ((List.range n).foldl calc_perf_step pdata).shared_io_total_time_by_slowest)
          agg_time_by_slowest :=
            ((List.range n).foldl calc_perf_step pdata).slowest_rank_io_total_time
              + ((List.range n).foldl calc_perf_step pdata).shared_io_total_time_by_slowest }
      else
        { (List.range n).foldl calc_perf_step pdata with
          agg_time_by_slowest :=
            ((List.range n).foldl calc_perf_step pdata).slowest_rank_io_total_time
              + ((List.range n).foldl calc_perf_step pdata).shared_io_total_time_by_slowest }) := by
    simp only [calc_perf]
    split <;> rfl
  by_cases hg : ((List.range n).foldl calc_perf_step pdata).slowest_rank_io_total_time
      + ((List.range n).foldl calc_perf_step pdata).shared_io_total_time_by_slowest = 0
  · rw [hunfold, if_neg (not_not_intro hg)]
    refine ⟨rfl, fun hne => absurd hg hne, fun hzero => ?_⟩
    exact hl.2.2.trans hzero.2.2
  · rw [hunfold, if_pos hg]
    refine ⟨rfl, fun _ => by rw [hl.1], fun hzero => ?_⟩
    exact absurd (by rw [hzero.1, hzero.2.1]; ring) hg

/-- Claim C7 witness: with 2 MiB of traffic and 2.0s of shared time the guard
    is live; the aggregate time is the sum and the bandwidth is the
    guarded quotient. -/
theorem C7_calc_perf_guard_witness :
    (calc_perf sample_perf_data 0).agg_time_by_slowest
      = (calc_perf sample_perf_data 0).slowest_rank_io_total_time
        + (calc_perf sample_perf_data 0).shared_io_total_time_by_slowest
    ∧ (calc_perf sample_perf_data 0).agg_perf_by_slowest
      = ((sample_perf_data.total_bytes : ℚ) / 1048576)
        / ((calc_perf sample_perf_data 0).slowest_rank_io_total_time
           + (calc_perf sample_perf_data 0).shared_io_total_time_by_slowest) :=
  ⟨(C7_calc_perf_guard sample_perf_data 0).1,
   (C7_calc_perf_guard sample_perf_data 0).2.1 (by
     norm_num [calc_perf, calc_perf_step, sample_perf_data, init_perf_data])⟩

/-! Section: C3 -/

theorem sumCumul_nil : sumCumul [] = 0 := rfl

theorem sumCumul_cons (k : ℕ) (v : hash_entry) (t : List (ℕ × hash_entry)) :
    sumCumul ((k, v) :: t) = v.cumul_io_total_time + sumCumul t := by
  simp [sumCumul]

/-- `upsert` with an accumulation step that adds `δ` to
    `cumul_io_total_time` adds `δ` to the hash-wide sum, whether the
    entry already existed or is created from the zero entry. -/
theorem sumCumul_upsert (id : ℕ) (g : hash_entry → hash_entry) (δ : ℚ)
    (hg : ∀ h, (g h).cumul_io_total_time = h.cumul_io_total_time + δ) :
    ∀ l, sumCumul (upsert id g l) = sumCumul l + δ := by
  intro l
  induction l with
  | nil =>
    simp [upsert, sumCumul, hg, init_hash_entry]
  | cons kv t ih =>
    obtain ⟨k, v⟩ := kv
    by_cases hk : k = id
    · rw [upsert, if_pos hk, sumCumul_cons, sumCumul_cons, hg]
      ring
    · rw [upsert, if_neg hk, sumCumul_cons, sumCumul_cons, ih]
      ring

/-- Adding `t` at an in-range index adds `t` to the per-rank sum. -/
theorem vecSum_updVec (v : ℤ → ℚ) (r : ℤ) (t : ℚ) (n : ℕ)
    (h0 : 0 ≤ r) (h1 : r < (n : ℤ)) :
    vecSum (updVec v r t) n = vecSum v n + t := by
  unfold vecSum updVec
  have key : r.toNat < n := by omega
  have hiff : ∀ i : ℕ, ((i : ℤ) = r) ↔ (i = r.toNat) := by intro i; omega
  calc ∑ i ∈ Finset.range n, (if (i : ℤ) = r then v (i : ℤ) + t else v (i : ℤ))
      = ∑ i ∈ Finset.range n, (v (i : ℤ) + if i = r.toNat then t else 0) := by
        refine Finset.sum_congr rfl fun i _ => ?_
        simp only [hiff]
        split <;> simp
    _ = (∑ i ∈ Finset.range n, v (i : ℤ))
          + ∑ i ∈ Finset.range n, (if i = r.toNat then t else 0) :=
        Finset.sum_add_distrib
    _ = (∑ i ∈ Finset.range n, v (i : ℤ)) + t := by
        rw [Finset.sum_ite_eq' (Finset.range n) r.toNat fun _ => t,
          if_pos (Finset.mem_range.mpr key)]

theorem accum_perf_shared (p : darshan_posix_file) (d : perf_data)
    (hr : p.rank = -1) :
    (posix_accum_perf p d).shared_io_total_time_by_slowest
      = d.shared_io_total_time_by_slowest + p.f_slowest_rank_time
    ∧ (posix_accum_perf p d).rank_cumul_io_total_time
      = d.rank_cumul_io_total_time := by
  rw [posix_accum_perf]
  simp [hr]

theorem accum_perf_rank (p : darshan_posix_file) (d : perf_data)
    (hr : ¬ p.rank = -1) :
    (posix_accum_perf p d).shared_io_total_time_by_slowest
      = d.shared_io_total_time_by_slowest
    ∧ (posix_accum_perf p d).rank_cumul_io_total_time
      = updVec d.rank_cumul_io_total_time p.rank
          (p.f_meta_time + p.f_read_time + p.f_write_time) := by
  rw [posix_accum_perf]
  simp [hr]

/-- The conservation invariant is preserved along a record stream in
    which every shared record's slowest-rank time equals the sum of its
    time counters and every per-rank record's rank is in range. -/
theorem fold_stream_conservation (n : ℕ) :
    ∀ rs : List darshan_posix_file,
      (∀ p ∈ rs,
        (p.rank = -1 →
          p.f_slowest_rank_time = p.f_meta_time + p.f_read_time + p.f_write_time)
        ∧ (¬ p.rank = -1 → 0 ≤ p.rank ∧ p.rank < (n : ℤ))) →
      ∀ s : engine_state,
        sumCumul s.file_hash_table
          = vecSum s.pdata.rank_cumul_io_total_time n
            + s.pdata.shared_io_total_time_by_slowest →
        sumCumul (fold_posix_stream n rs s).file_hash_table
          = vecSum (fold_posix_stream n rs s).pdata.rank_cumul_io_total_time n
            + (fold_posix_stream n rs s).pdata.shared_io_total_time_by_slowest := by
  intro rs
  induction rs with
  | nil => intro _ s hinv; exact hinv
  | cons p t ih =>
    intro hreg s hinv
    have hp := hreg p (by simp)
    have ht : ∀ q ∈ t,
        (q.rank = -1 →
          q.f_slowest_rank_time = q.f_meta_time + q.f_read_time + q.f_write_time)
        ∧ (¬ q.rank = -1 → 0 ≤ q.rank ∧ q.rank < (n : ℤ)) :=
      fun q hq => hreg q (by simp [hq])
    have hfile : sumCumul (fold_posix_record n s p).file_hash_table
        = sumCumul s.file_hash_table
          + (p.f_meta_time + p.f_read_time + p.f_write_time) :=
      sumCumul_upsert p.id _ _ (fun h => accum_file_cumul p h n) s.file_hash_table
    have hstep : sumCumul (fold_posix_record n s p).file_hash_table
        = vecSum (fold_posix_record n s p).pdata.rank_cumul_io_total_time n
          + (fold_posix_record n s p).pdata.shared_io_total_time_by_slowest := by
      by_cases hr : p.rank = -1
      · have hperf := accum_perf_shared p s.pdata hr
        have hbal := hp.1 hr
        rw [hfile, hinv]
        show _ = vecSum (posix_accum_perf p s.pdata).rank_cumul_io_total_time n
          + (posix_accum_perf p s.pdata).shared_io_total_time_by_slowest
        rw [hperf.1, hperf.2, hbal]
        ring
      · have hperf := accum_perf_rank p s.pdata hr
        have hrange := hp.2 hr
        rw [hfile, hinv]
        show _ = vecSum (posix_accum_perf p s.pdata).rank_cumul_io_total_time n
          + (posix_accum_perf p s.pdata).shared_io_total_time_by_slowest
        rw [hperf.1, hperf.2, vecSum_updVec _ _ _ _ hrange.1 hrange.2]
        ring
    simpa [fold_posix_stream] using ih ht (fold_posix_record n s p) hstep

/-- Claim C3, counterexample: one shared record with time counters summing to
    1.0s but slowest-rank time 2.0s.  The per-file side accumulates
    1.0s into `cumul_io_total_time` while the perf side adds 2.0s to
    `shared_io_total_time_by_slowest`, so the two sides of the claimed
    conservation identity are 1 and 2. -/
theorem C3_conservation_counterexample :
    ¬ (sumCumul (fold_posix_stream 1 [recShared] init_engine_state).file_hash_table
        = vecSum (fold_posix_stream 1 [recShared]
            init_engine_state).pdata.rank_cumul_io_total_time 1
          + (fold_posix_stream 1 [recShared]
              init_engine_state).pdata.shared_io_total_time_by_slowest) := by
  norm_num [fold_posix_stream, fold_posix_record, posix_accum_perf,
    posix_accum_file, upsert, sumCumul, vecSum, init_engine_state,
    init_perf_data, init_hash_entry, recShared, updVec,
    Finset.sum_range_succ]

/-- Claim C3, amended: the conservation identity — the sum over all per-file
    accumulators of `cumul_io_total_time` equals the sum over the rank
    indices `0..nprocs-1` of `rank_cumul_io_total_time` plus
    `shared_io_total_time_by_slowest` — holds for every record stream in
    which (a) every `rank == -1` record's `SLOWEST_RANK_TIME` counter
    equals the sum of its META/READ/WRITE time counters, and (b) every
    per-rank record's rank lies in `[0, nprocs)`.  Without (a) the two
    sides diverge because `posix_accum_file` charges the counter sum
    while `posix_accum_perf` charges the slowest-rank counter; without
    (b) the per-rank time lands outside the summed index range. -/
theorem C3_conservation_amended (n : ℕ) (rs : List darshan_posix_file)
    (hreg : ∀ p ∈ rs,
      (p.rank = -1 →
        p.f_slowest_rank_time = p.f_meta_time + p.f_read_time + p.f_write_time)
      ∧ (¬ p.rank = -1 → 0 ≤ p.rank ∧ p.rank < (n : ℤ))) :
    sumCumul (fold_posix_stream n rs init_engine_state).file_hash_table
      = vecSum (fold_posix_stream n rs
          init_engine_state).pdata.rank_cumul_io_total_time n
        + (fold_posix_stream n rs
            init_engine_state).pdata.shared_io_total_time_by_slowest := by
  refine fold_stream_conservation n rs hreg init_engine_state ?_
  simp [init_engine_state, init_perf_data, sumCumul, vecSum]

/-- Claim C3 witness: the amended identity instantiated for a two-record
    stream (a rank-0 record and a balanced shared record) under
    `nprocs = 2`. -/
theorem C3_conservation_witness :
    sumCumul (fold_posix_stream 2 [recRank0, recSharedBal]
        init_engine_state).file_hash_table
      = vecSum (fold_posix_stream 2 [recRank0, recSharedBal]
          init_engine_state).pdata.rank_cumul_io_total_time 2
        + (fold_posix_stream 2 [recRank0, recSharedBal]
            init_engine_state).pdata.shared_io_total_time_by_slowest := by
  refine C3_conservation_amended 2 [recRank0, recSharedBal] ?_
  intro p hp
  rcases List.mem_cons.mp hp with h | h
  · subst h
    refine ⟨fun hc => by simp [recRank0] at hc, fun _ => by norm_num [recRank0]⟩
  · have h' : p = recSharedBal := by simpa using h
    subst h'
    refine ⟨fun _ => by norm_num [recSharedBal], fun hc => ?_⟩
    exact absurd (by norm_num [recSharedBal]) hc

/-! Section: C9 -/

/-- Claim C9: on a mount table listed longest-path-first (the order the log
    utilities provide), the parser's first-match scan returns a matching
    entry of maximal mount-path length among all matching entries — i.e.
    the longest-prefix match — and when no mount path is a prefix of the
    record path it falls back to `("UNKNOWN", "UNKNOWN")`. -/
theorem C9_longest_first_match (name : List Char) :
    ∀ tbl : List mnt_info, mounts_longest_first tbl →
      (∀ m, find_mount name tbl = some m →
        is_path_match m.mnt_path name = true
        ∧ resolve_mount name tbl = (m.mnt_path, m.mnt_type)
        ∧ ∀ m' ∈ tbl, is_path_match m'.mnt_path name = true →
            m'.mnt_path.length ≤ m.mnt_path.length)
      ∧ (find_mount name tbl = none →
        (∀ m' ∈ tbl, is_path_match m'.mnt_path name = false)
        ∧ resolve_mount name tbl = ("UNKNOWN".data, "UNKNOWN".data)) := by
  intro tbl
  induction tbl with
  | nil =>
    intro _
    constructor
    · intro m hm
      simp [find_mount] at hm
    · intro _
      exact ⟨by simp, rfl⟩
  | cons a t ih =>
    intro hsorted
    rw [mounts_longest_first, List.pairwise_cons] at hsorted
    have iht := ih hsorted.2
    by_cases hmatch : is_path_match a.mnt_path name = true
    · constructor
      · intro m hm
        have hma : a = m := by
          rw [find_mount, if_pos hmatch] at hm
          exact Option.some.inj hm
        subst hma
        refine ⟨hmatch, by simp [resolve_mount, find_mount, hmatch], ?_⟩
        intro m' hm' _
        rcases List.mem_cons.mp hm' with h | h
        · subst h; exact le_refl _
        · exact hsorted.1 m' h
      · intro hnone
        rw [find_mount, if_pos hmatch] at hnone
        cases hnone
    · have hmatch' : is_path_match a.mnt_path name = false :=
        Bool.eq_false_iff.mpr hmatch
      have hfind : find_mount name (a :: t) = find_mount name t := by
        rw [find_mount, if_neg hmatch]
      constructor
      · intro m hm
        rw [hfind] at hm
        obtain ⟨h1, _, h3⟩ := iht.1 m hm
        refine ⟨h1, by simp [resolve_mount, hfind, hm], ?_⟩
        intro m' hm' hmm'
        rcases List.mem_cons.mp hm' with h | h
        · subst h; exact absurd hmm' hmatch
        · exact h3 m' h hmm'
      · intro hnone
        rw [hfind] at hnone
        obtain ⟨h1, _⟩ := iht.2 hnone
        refine ⟨?_, by simp [resolve_mount, hfind, hnone]⟩
        intro m' hm'
        rcases List.mem_cons.mp hm' with h | h
        · subst h; exact hmatch'
        · exact h1 m' h

/-- Claim C9 witness: on the sample two-entry table (longest first), the path
    `/home/user/data.h5` resolves to the longer matching mount
    `(/home/user, nfs)`, whose path length bounds every matching
    entry's. -/
theorem C9_longest_first_match_witness :
    resolve_mount "/home/user/data.h5".data sample_mounts
      = ("/home/user".data, "nfs".data)
    ∧ ∀ m' ∈ sample_mounts,
        is_path_match m'.mnt_path "/home/user/data.h5".data = true →
        m'.mnt_path.length ≤ ("/home/user".data).length := by
  have h := (C9_longest_first_match "/home/user/data.h5".data sample_mounts
      (by rw [mounts_longest_first]; simp [sample_mounts, List.pairwise_cons])).1
    { mnt_path := "/home/user".data, mnt_type := "nfs".data } (by decide)
  exact ⟨h.2.1, h.2.2⟩

/-! Section: C10 -/

theorem mask_fold_show (fs : List CliFlag)
    (hfs : ∀ f ∈ fs, f = CliFlag.showIncomplete) :
    ∀ m, m = 0 ∨ m = OPTION_SHOW_INCOMPLETE →
      fs.foldl (fun m f => m ||| f.optVal) m = 0
      ∨ fs.foldl (fun m f => m ||| f.optVal) m = OPTION_SHOW_INCOMPLETE := by
  induction fs with
  | nil => intro m hm; exact hm
  | cons f t ih =>
    intro m hm
    have hf : f = CliFlag.showIncomplete := hfs f (by simp)
    have ht : ∀ g ∈ t, g = CliFlag.showIncomplete := fun g hg => hfs g (by simp [hg])
    have step : m ||| f.optVal = OPTION_SHOW_INCOMPLETE := by
      rcases hm with hm | hm <;> subst hm <;> subst hf <;> decide
    simpa [step] using ih ht (m ||| f.optVal) (Or.inr step)

/-- Claim C10: if the command line carries no option flags at all, or only
    `--show-incomplete` flags, `parse_args` ORs `OPTION_BASE` into the
    mask (darshan-parser.c:200-204), so base per-record output is still
    selected rather than suppressed. -/
theorem C10_default_base (fs : List CliFlag)
    (hfs : ∀ f ∈ fs, f = CliFlag.showIncomplete) :
    parse_args_mask fs &&& OPTION_BASE ≠ 0 := by
  have h := mask_fold_show fs hfs 0 (Or.inl rfl)
  simp only [parse_args_mask]
  rcases h with h | h <;> rw [h] <;> decide

/-- Claim C10 witness: the mask for `--show-incomplete` alone includes
    `OPTION_BASE`. -/
theorem C10_default_base_witness :
    parse_args_mask [CliFlag.showIncomplete] &&& OPTION_BASE ≠ 0 :=
  C10_default_base [CliFlag.showIncomplete] (by decide)

/-! Section: DXT helper lemmas -/

theorem wr_inc_mul_le (segSz mem : ℤ) (r : dxt_file_rec)
    (hs : 0 < segSz) (hm : 0 ≤ mem) : wr_inc segSz mem r * segSz ≤ mem := by
  simp only [wr_inc]
  by_cases hge : r.write_count ≥ r.write_available_buf
  · simp only [if_pos hge]
    by_cases hclamp : (if r.write_available_buf = 0 then IO_TRACE_BUF_SIZE
        else r.write_available_buf) * segSz > mem
    · simp only [if_pos hclamp]
      exact Int.ediv_mul_le mem (ne_of_gt hs)
    · simp only [if_neg hclamp]
      exact le_of_not_lt hclamp
  · simp only [if_neg hge, zero_mul]
    exact hm

theorem wr_inc_nonneg (segSz mem : ℤ) (r : dxt_file_rec)
    (hs : 0 < segSz) (hm : 0 ≤ mem) (ha : 0 ≤ r.write_available_buf) :
    0 ≤ wr_inc segSz mem r := by
  simp only [wr_inc]
  by_cases hge : r.write_count ≥ r.write_available_buf
  · simp only [if_pos hge]
    by_cases hclamp : (if r.write_available_buf = 0 then IO_TRACE_BUF_SIZE
        else r.write_available_buf) * segSz > mem
    · simp only [if_pos hclamp]
      exact Int.ediv_nonneg hm (le_of_lt hs)
    · simp only [if_neg hclamp]
      by_cases hz : r.write_available_buf = 0
      · simp only [if_pos hz]; decide
      · simp only [if_neg hz]; exact ha
  · simp only [if_neg hge]; exact le_refl 0

theorem rd_inc_mul_le (segSz mem : ℤ) (r : dxt_file_rec)
    (hs : 0 < segSz) (hm : 0 ≤ mem) : rd_inc segSz mem r * segSz ≤ mem := by
  simp only [rd_inc]
  by_cases hge : r.read_count ≥ r.read_available_buf
  · simp only [if_pos hge]
    by_cases hclamp : (if r.read_available_buf = 0 then IO_TRACE_BUF_SIZE
        else r.read_available_buf) * segSz > mem
    · simp only [if_pos hclamp]
      exact Int.ediv_mul_le mem (ne_of_gt hs)
    · simp only [if_neg hclamp]
      exact le_of_not_lt hclamp
  · simp only [if_neg hge, zero_mul]
    exact hm

theorem rd_inc_nonneg (segSz mem : ℤ) (r : dxt_file_rec)
    (hs : 0 < segSz) (hm : 0 ≤ mem) (ha : 0 ≤ r.read_available_buf) :
    0 ≤ rd_inc segSz mem r := by
  simp only [rd_inc]
  by_cases hge : r.read_count ≥ r.read_available_buf
  · simp only [if_pos hge]
    by_cases hclamp : (if r.read_available_buf = 0 then IO_TRACE_BUF_SIZE
        else r.read_available_buf) * segSz > mem
    · simp only [if_pos hclamp]
      exact Int.ediv_nonneg hm (le_of_lt hs)
    · simp only [if_neg hclamp]
      by_cases hz : r.read_available_buf = 0
      · simp only [if_pos hz]; decide
      · simp only [if_neg hz]; exact ha
  · simp only [if_neg hge]; exact le_refl 0

/-- The write-direction body: the budget stays in `[0, mem]` and the
    capacities stay non-negative. -/
theorem dxt_write_body_spec (segSz mem : ℤ) (r : dxt_file_rec)
    (hs : 0 < segSz) (hm : 0 ≤ mem)
    (ha : 0 ≤ r.write_available_buf) (hra : 0 ≤ r.read_available_buf) :
    0 ≤ (dxt_write_body segSz mem r).1
    ∧ (dxt_write_body segSz mem r).1 ≤ mem
    ∧ 0 ≤ (dxt_write_body segSz mem r).2.write_available_buf
    ∧ 0 ≤ (dxt_write_body segSz mem r).2.read_available_buf := by
  have hmul := wr_inc_mul_le segSz mem r hs hm
  have hnn := wr_inc_nonneg segSz mem r hs hm ha
  have hmem : 0 ≤ check_wr_mem segSz mem r ∧ check_wr_mem segSz mem r ≤ mem := by
    unfold check_wr_mem
    constructor
    · omega
    · have : 0 ≤ wr_inc segSz mem r * segSz := mul_nonneg hnn (le_of_lt hs)
      omega
  have hrec : 0 ≤ (check_wr_rec segSz mem r).write_available_buf
      ∧ 0 ≤ (check_wr_rec segSz mem r).read_available_buf := by
    unfold check_wr_rec
    by_cases hpos : wr_inc segSz mem r > 0
    · simp only [if_pos hpos]
      exact ⟨by omega, hra⟩
    · simp only [if_neg hpos]
      exact ⟨ha, hra⟩
  unfold dxt_write_body
  by_cases happ : (check_wr_rec segSz mem r).write_count
      = (check_wr_rec segSz mem r).write_available_buf
  · simp only [if_pos happ]
    exact ⟨hmem.1, hmem.2, hrec.1, hrec.2⟩
  · simp only [if_neg happ]
    exact ⟨hmem.1, hmem.2, hrec.1, hrec.2⟩

/-- The read-direction body mirror of `dxt_write_body_spec`. -/
theorem dxt_read_body_spec (segSz mem : ℤ) (r : dxt_file_rec)
    (hs : 0 < segSz) (hm : 0 ≤ mem)
    (ha : 0 ≤ r.write_available_buf) (hra : 0 ≤ r.read_available_buf) :
    0 ≤ (dxt_read_body segSz mem r).1
    ∧ (dxt_read_body segSz mem r).1 ≤ mem
    ∧ 0 ≤ (dxt_read_body segSz mem r).2.write_available_buf
    ∧ 0 ≤ (dxt_read_body segSz mem r).2.read_available_buf := by
  have hmul := rd_inc_mul_le segSz mem r hs hm
  have hnn := rd_inc_nonneg segSz mem r hs hm hra
  have hmem : 0 ≤ check_rd_mem segSz mem r ∧ check_rd_mem segSz mem r ≤ mem := by
    unfold check_rd_mem
    constructor
    · omega
    · have : 0 ≤ rd_inc segSz mem r * segSz := mul_nonneg hnn (le_of_lt hs)
      omega
  have hrec : 0 ≤ (check_rd_rec segSz mem r).write_available_buf
      ∧ 0 ≤ (check_rd_rec segSz mem r).read_available_buf := by
    unfold check_rd_rec
    by_cases hpos : rd_inc segSz mem r > 0
    · simp only [if_pos hpos]
      exact ⟨ha, by omega⟩
    · simp only [if_neg hpos]
      exact ⟨ha, hra⟩
  unfold dxt_read_body
  by_cases happ : (check_rd_rec segSz mem r).read_count
      = (check_rd_rec segSz mem r).read_available_buf
  · simp only [if_pos happ]
    exact ⟨hmem.1, hmem.2, hrec.1, hrec.2⟩
  · simp only [if_neg happ]
    exact ⟨hmem.1, hmem.2, hrec.1, hrec.2⟩

theorem findRec_nonneg {l : List (ℕ × dxt_file_rec)} {id : ℕ} {r : dxt_file_rec}
    (hl : recs_nonneg l) (hfind : findRec id l = some r) :
    0 ≤ r.write_available_buf ∧ 0 ≤ r.read_available_buf := by
  induction l with
  | nil => cases hfind
  | cons kv t ih =>
    obtain ⟨k, v⟩ := kv
    by_cases hk : k = id
    · rw [findRec, if_pos hk] at hfind
      obtain rfl := Option.some.inj hfind
      exact hl (k, v) (by simp)
    · rw [findRec, if_neg hk] at hfind
      exact ih (fun p hp => hl p (by simp [hp])) hfind

theorem recs_nonneg_setRec {l : List (ℕ × dxt_file_rec)} {id : ℕ}
    {x : dxt_file_rec} (hl : recs_nonneg l)
    (hx : 0 ≤ x.write_available_buf ∧ 0 ≤ x.read_available_buf) :
    recs_nonneg (setRec id x l) := by
  induction l with
  | nil => intro p hp; cases hp
  | cons kv t ih =>
    obtain ⟨k, v⟩ := kv
    by_cases hk : k = id
    · rw [setRec, if_pos hk]
      intro p hp
      rcases List.mem_cons.mp hp with h | h
      · subst h; exact hx
      · exact hl p (by simp [h])
    · rw [setRec, if_neg hk]
      intro p hp
      rcases List.mem_cons.mp hp with h | h
      · subst h; exact hl (k, v) (by simp)
      · exact ih (fun q hq => hl q (by simp [hq])) p h

/-- The write-path table transition: the budget stays in `[0, mem]` and
    the table stays well-formed. -/
theorem dxt_table_write_spec (segSz fileSz : ℤ) (id : ℕ)
    (l : List (ℕ × dxt_file_rec)) (mem : ℤ)
    (hs : 0 < segSz) (hf : 0 ≤ fileSz) (hm : 0 ≤ mem) (hl : recs_nonneg l) :
    0 ≤ (dxt_table_write segSz fileSz id l mem).2
    ∧ (dxt_table_write segSz fileSz id l mem).2 ≤ mem
    ∧ recs_nonneg (dxt_table_write segSz fileSz id l mem).1 := by
  unfold dxt_table_write
  cases hfind : findRec id l with
  | some r =>
    simp only [hfind]
    have hr := findRec_nonneg hl hfind
    have hbody := dxt_write_body_spec segSz mem r hs hm hr.1 hr.2
    exact ⟨hbody.1, hbody.2.1,
      recs_nonneg_setRec hl ⟨hbody.2.2.1, hbody.2.2.2⟩⟩
  | none =>
    simp only [hfind]
    unfold track_new_file_record
    by_cases hlt : mem < fileSz
    · simp only [if_pos hlt]
      exact ⟨hm, le_refl mem, hl⟩
    · simp only [if_neg hlt]
      have hm1 : 0 ≤ mem - fileSz := by omega
      have hbody := dxt_write_body_spec segSz (mem - fileSz) init_dxt_file_rec
        hs hm1 (le_refl 0) (le_refl 0)
      refine ⟨hbody.1, le_trans hbody.2.1 (by omega), ?_⟩
      intro p hp
      rcases List.mem_cons.mp hp with h | h
      · subst h; exact ⟨hbody.2.2.1, hbody.2.2.2⟩
      · exact hl p h

/-- Mirror of `dxt_table_write_spec` for the read path. -/
theorem dxt_table_read_spec (segSz fileSz : ℤ) (id : ℕ)
    (l : List (ℕ × dxt_file_rec)) (mem : ℤ)
    (hs : 0 < segSz) (hf : 0 ≤ fileSz) (hm : 0 ≤ mem) (hl : recs_nonneg l) :
    0 ≤ (dxt_table_read segSz fileSz id l mem).2
    ∧ (dxt_table_read segSz fileSz id l mem).2 ≤ mem
    ∧ recs_nonneg (dxt_table_read segSz fileSz id l mem).1 := by
  unfold dxt_table_read
  cases hfind : findRec id l with
  | some r =>
    simp only [hfind]
    have hr := findRec_nonneg hl hfind
    have hbody := dxt_read_body_spec segSz mem r hs hm hr.1 hr.2
    exact ⟨hbody.1, hbody.2.1,
      recs_nonneg_setRec hl ⟨hbody.2.2.1, hbody.2.2.2⟩⟩
  | none =>
    simp only [hfind]
    unfold track_new_file_record
    by_cases hlt : mem < fileSz
    · simp only [if_pos hlt]
      exact ⟨hm, le_refl mem, hl⟩
    · simp only [if_neg hlt]
      have hm1 : 0 ≤ mem - fileSz := by omega
      have hbody := dxt_read_body_spec segSz (mem - fileSz) init_dxt_file_rec
        hs hm1 (le_refl 0) (le_refl 0)
      refine ⟨hbody.1, le_trans hbody.2.1 (by omega), ?_⟩
      intro p hp
      rcases List.mem_cons.mp hp with h | h
      · subst h; exact ⟨hbody.2.2.1, hbody.2.2.2⟩
      · exact hl p h

/-- Any single trace call keeps the budget in `[0, previous]` and the
    tables well-formed. -/
theorem dxt_step_spec (segSz fileSz : ℤ) (s : dxt_state) (op : dxt_op)
    (hs : 0 < segSz) (hf : 0 ≤ fileSz)
    (hm : 0 ≤ s.dxt_mem_remaining)
    (hp : recs_nonneg s.posix_recs) (hq : recs_nonneg s.mpiio_recs) :
    0 ≤ (dxt_step segSz fileSz s op).dxt_mem_remaining
    ∧ (dxt_step segSz fileSz s op).dxt_mem_remaining ≤ s.dxt_mem_remaining
    ∧ recs_nonneg (dxt_step segSz fileSz s op).posix_recs
    ∧ recs_nonneg (dxt_step segSz fileSz s op).mpiio_recs := by
  cases op with
  | pw id =>
    simp only [dxt_step]
    unfold dxt_posix_write
    by_cases hd : s.instr_disabled
    · simp only [if_pos hd]
      exact ⟨hm, le_refl _, hp, hq⟩
    · simp only [if_neg hd]
      have h := dxt_table_write_spec segSz fileSz id s.posix_recs
        s.dxt_mem_remaining hs hf hm hp
      exact ⟨h.1, h.2.1, h.2.2, hq⟩
  | pr id =>
    simp only [dxt_step]
    unfold dxt_posix_read
    by_cases hd : s.instr_disabled
    · simp only [if_pos hd]
      exact ⟨hm, le_refl _, hp, hq⟩
    · simp only [if_neg hd]
      have h := dxt_table_read_spec segSz fileSz id s.posix_recs
        s.dxt_mem_remaining hs hf hm hp
      exact ⟨h.1, h.2.1, h.2.2, hq⟩
  | mw id =>
    simp only [dxt_step]
    unfold dxt_mpiio_write
    by_cases hd : s.instr_disabled
    · simp only [if_pos hd]
      exact ⟨hm, le_refl _, hp, hq⟩
    · simp only [if_neg hd]
      have h := dxt_table_write_spec segSz fileSz id s.mpiio_recs
        s.dxt_mem_remaining hs hf hm hq
      exact ⟨h.1, h.2.1, hp, h.2.2⟩
  | mr id =>
    simp only [dxt_step]
    unfold dxt_mpiio_read
    by_cases hd : s.instr_disabled
    · simp only [if_pos hd]
      exact ⟨hm, le_refl _, hp, hq⟩
    · simp only [if_neg hd]
      have h := dxt_table_read_spec segSz fileSz id s.mpiio_recs
        s.dxt_mem_remaining hs hf hm hq
      exact ⟨h.1, h.2.1, hp, h.2.2⟩

/-- Running any trace sequence keeps the budget in `[0, starting]` and
    the tables well-formed. -/
theorem dxt_run_spec (segSz fileSz : ℤ) (hs : 0 < segSz) (hf : 0 ≤ fileSz)
    (ops : List dxt_op) :
    ∀ s : dxt_state, 0 ≤ s.dxt_mem_remaining →
      recs_nonneg s.posix_recs → recs_nonneg s.mpiio_recs →
      0 ≤ (dxt_run segSz fileSz ops s).dxt_mem_remaining
      ∧ (dxt_run segSz fileSz ops s).dxt_mem_remaining ≤ s.dxt_mem_remaining
      ∧ recs_nonneg (dxt_run segSz fileSz ops s).posix_recs
      ∧ recs_nonneg (dxt_run segSz fileSz ops s).mpiio_recs := by
  induction ops with
  | nil => intro s hm hp hq; exact ⟨hm, le_refl _, hp, hq⟩
  | cons op t ih =>
    intro s hm hp hq
    have hstep := dxt_step_spec segSz fileSz s op hs hf hm hp hq
    have hrest := ih (dxt_step segSz fileSz s op) hstep.1 hstep.2.2.1 hstep.2.2.2
    exact ⟨hrest.1, le_trans hrest.2.1 hstep.2.1, hrest.2.2.1, hrest.2.2.2⟩

/-! Section: C5 -/

/-- Claim C5: starting from the fresh 4 MiB budget, any sequence of DXT trace
    calls (POSIX and MPI-IO, creations and buffer growths) leaves
    `dxt_mem_remaining` non-negative, so the total bytes charged against
    the shared budget, `DXT_IO_TRACE_MEM_MAX - dxt_mem_remaining`, never
    exceed 4 MiB.  Holds for any positive `sizeof(segment_info)` and
    non-negative `sizeof(struct dxt_file_record)`. -/
theorem C5_budget_never_negative (segSz fileSz : ℤ)
    (hs : 0 < segSz) (hf : 0 ≤ fileSz) (ops : List dxt_op) :
    0 ≤ (dxt_run segSz fileSz ops init_dxt_state).dxt_mem_remaining
    ∧ DXT_IO_TRACE_MEM_MAX
        - (dxt_run segSz fileSz ops init_dxt_state).dxt_mem_remaining
      ≤ DXT_IO_TRACE_MEM_MAX := by
  have h := dxt_run_spec segSz fileSz hs hf ops init_dxt_state
    (by rw [init_dxt_state]; decide)
    (fun p hp => by cases hp) (fun p hp => by cases hp)
  exact ⟨h.1, by omega⟩

/-- Claim C5 witness: a concrete run (two POSIX writes and an MPI-IO read on
    fresh records) with 32-byte segments and 48-byte file records. -/
theorem C5_budget_never_negative_witness :
    0 ≤ (dxt_run 32 48 [dxt_op.pw 1, dxt_op.pw 1, dxt_op.mr 2]
        init_dxt_state).dxt_mem_remaining
    ∧ DXT_IO_TRACE_MEM_MAX
        - (dxt_run 32 48 [dxt_op.pw 1, dxt_op.pw 1, dxt_op.mr 2]
            init_dxt_state).dxt_mem_remaining
      ≤ DXT_IO_TRACE_MEM_MAX :=
  C5_budget_never_negative 32 48 (by decide) (by decide)
    [dxt_op.pw 1, dxt_op.pw 1, dxt_op.mr 2]

/-! Section: C6 -/

/-- When fewer bytes than one segment remain, every write-growth request
    settles on a zero increment. -/
theorem wr_inc_zero_of_starved (segSz mem : ℤ) (r : dxt_file_rec)
    (hs : 0 < segSz) (hm0 : 0 ≤ mem) (hm1 : mem < segSz)
    (ha : 0 ≤ r.write_available_buf) : wr_inc segSz mem r = 0 := by
  simp only [wr_inc]
  by_cases hge : r.write_count ≥ r.write_available_buf
  · simp only [if_pos hge]
    have hinc0 : 1 ≤ (if r.write_available_buf = 0 then IO_TRACE_BUF_SIZE
        else r.write_available_buf) := by
      by_cases hz : r.write_available_buf = 0
      · simp only [if_pos hz]; decide
      · simp only [if_neg hz]; omega
    have hclamp : (if r.write_available_buf = 0 then IO_TRACE_BUF_SIZE
        else r.write_available_buf) * segSz > mem :=
      lt_of_lt_of_le hm1 (le_mul_of_one_le_left (le_of_lt hs) hinc0)
    simp only [if_pos hclamp]
    exact Int.ediv_eq_zero_of_lt hm0 hm1
  · simp only [if_neg hge]

/-- A starved write body leaves the budget and the record untouched when
    the write buffer is exactly full. -/
theorem dxt_write_body_frozen (segSz mem : ℤ) (r : dxt_file_rec)
    (hs : 0 < segSz) (hm0 : 0 ≤ mem) (hm1 : mem < segSz)
    (ha : 0 ≤ r.write_available_buf)
    (hfull : r.write_count = r.write_available_buf) :
    dxt_write_body segSz mem r = (mem, r) := by
  have hinc := wr_inc_zero_of_starved segSz mem r hs hm0 hm1 ha
  unfold dxt_write_body check_wr_mem check_wr_rec
  rw [hinc]
  simp [hfull]

theorem setRec_self {l : List (ℕ × dxt_file_rec)} {id : ℕ} {r : dxt_file_rec}
    (hfind : findRec id l = some r) : setRec id r l = l := by
  induction l with
  | nil => rfl
  | cons kv t ih =>
    obtain ⟨k, v⟩ := kv
    by_cases hk : k = id
    · rw [findRec, if_pos hk] at hfind
      obtain rfl := Option.some.inj hfind
      rw [setRec, if_pos hk]
    · rw [findRec, if_neg hk] at hfind
      rw [setRec, if_neg hk, ih hfind]

theorem findRec_setRec_eq {l : List (ℕ × dxt_file_rec)} {id : ℕ}
    {r : dxt_file_rec} (x : dxt_file_rec) (hfind : findRec id l = some r) :
    findRec id (setRec id x l) = some x := by
  induction l with
  | nil => cases hfind
  | cons kv t ih =>
    obtain ⟨k, v⟩ := kv
    by_cases hk : k = id
    · rw [setRec, if_pos hk, findRec, if_pos hk]
    · rw [findRec, if_neg hk] at hfind
      rw [setRec, if_neg hk, findRec, if_neg hk]
      exact ih hfind

theorem findRec_setRec_ne {k id : ℕ} (hne : k ≠ id) (x : dxt_file_rec)
    (l : List (ℕ × dxt_file_rec)) :
    findRec id (setRec k x l) = findRec id l := by
  induction l with
  | nil => rfl
  | cons kv t ih =>
    obtain ⟨k', v⟩ := kv
    by_cases hk : k' = k
    · subst hk
      rw [setRec, if_pos rfl, findRec, findRec, if_neg hne, if_neg hne]
    · rw [setRec, if_neg hk, findRec, findRec, ih]

/-- The no-op shape of a starved `dxt_posix_write` on a record whose
    write buffer is exactly full: the call backs out and the whole state
    is unchanged. -/
theorem dxt_posix_write_frozen (segSz fileSz : ℤ) (id : ℕ) (s : dxt_state)
    (r : dxt_file_rec) (hs : 0 < segSz)
    (hm0 : 0 ≤ s.dxt_mem_remaining) (hm1 : s.dxt_mem_remaining < segSz)
    (hp : recs_nonneg s.posix_recs)
    (hfind : findRec id s.posix_recs = some r)
    (hfull : r.write_count = r.write_available_buf) :
    dxt_posix_write segSz fileSz id s = s := by
  unfold dxt_posix_write
  by_cases hd : s.instr_disabled
  · simp only [if_pos hd]
  · simp only [if_neg hd]
    have hr := findRec_nonneg hp hfind
    have hbody := dxt_write_body_frozen segSz s.dxt_mem_remaining r
      hs hm0 hm1 hr.1 hfull
    have htab : dxt_table_write segSz fileSz id s.posix_recs s.dxt_mem_remaining
        = (s.posix_recs, s.dxt_mem_remaining) := by
      unfold dxt_table_write
      simp only [hfind, hbody, setRec_self hfind]
    rw [htab]

theorem findRec_table_write_ne (segSz fileSz : ℤ) {k id : ℕ} (hne : k ≠ id)
    (l : List (ℕ × dxt_file_rec)) (mem : ℤ) :
    findRec id (dxt_table_write segSz fileSz k l mem).1 = findRec id l := by
  unfold dxt_table_write
  cases hfind : findRec k l with
  | some r =>
    simp only [hfind]
    exact findRec_setRec_ne hne _ l
  | none =>
    simp only [hfind]
    unfold track_new_file_record
    by_cases hlt : mem < fileSz
    · simp only [if_pos hlt]
    · simp only [if_neg hlt]
      rw [findRec, if_neg hne]

theorem findRec_table_read_ne (segSz fileSz : ℤ) {k id : ℕ} (hne : k ≠ id)
    (l : List (ℕ × dxt_file_rec)) (mem : ℤ) :
    findRec id (dxt_table_read segSz fileSz k l mem).1 = findRec id l := by
  unfold dxt_table_read
  cases hfind : findRec k l with
  | some r =>
    simp only [hfind]
    exact findRec_setRec_ne hne _ l
  | none =>
    simp only [hfind]
    unfold track_new_file_record
    by_cases hlt : mem < fileSz
    · simp only [if_pos hlt]
    · simp only [if_neg hlt]
      rw [findRec, if_neg hne]

/-- The read body never touches the write-direction fields. -/
theorem dxt_read_body_write_fields (segSz mem : ℤ) (r : dxt_file_rec) :
    (dxt_read_body segSz mem r).2.write_count = r.write_count
    ∧ (dxt_read_body segSz mem r).2.write_available_buf
      = r.write_available_buf := by
  have h1 : (check_rd_rec segSz mem r).write_count = r.write_count
      ∧ (check_rd_rec segSz mem r).write_available_buf
        = r.write_available_buf := by
    unfold check_rd_rec
    split <;> exact ⟨rfl, rfl⟩
  simp only [dxt_read_body]
  split <;> exact ⟨h1.1, h1.2⟩

/-- A read on the same record keeps its write-direction fields. -/
theorem findRec_table_read_self (segSz fileSz : ℤ) (id : ℕ)
    (l : List (ℕ × dxt_file_rec)) (mem : ℤ) (r : dxt_file_rec)
    (hfind : findRec id l = some r) :
    ∃ r', findRec id (dxt_table_read segSz fileSz id l mem).1 = some r'
      ∧ r'.write_count = r.write_count
      ∧ r'.write_available_buf = r.write_available_buf := by
  unfold dxt_table_read
  simp only [hfind]
  exact ⟨(dxt_read_body segSz mem r).2, findRec_setRec_eq _ hfind,
    (dxt_read_body_write_fields segSz mem r).1,
    (dxt_read_body_write_fields segSz mem r).2⟩

/-- One step of any trace call preserves the starved-and-frozen state of
    the POSIX record `id`. -/
theorem dxt_step_frozen (segSz fileSz : ℤ) (id : ℕ) (c : ℤ) (op : dxt_op)
    (s : dxt_state) (hs : 0 < segSz) (hf : 0 ≤ fileSz)
    (hm0 : 0 ≤ s.dxt_mem_remaining) (hm1 : s.dxt_mem_remaining < segSz)
    (hp : recs_nonneg s.posix_recs) (hq : recs_nonneg s.mpiio_recs)
    (hex : ∃ r, findRec id s.posix_recs = some r
      ∧ r.write_count = c ∧ r.write_available_buf = c) :
    0 ≤ (dxt_step segSz fileSz s op).dxt_mem_remaining
    ∧ (dxt_step segSz fileSz s op).dxt_mem_remaining < segSz
    ∧ recs_nonneg (dxt_step segSz fileSz s op).posix_recs
    ∧ recs_nonneg (dxt_step segSz fileSz s op).mpiio_recs
    ∧ ∃ r', findRec id (dxt_step segSz fileSz s op).posix_recs = some r'
        ∧ r'.write_count = c ∧ r'.write_available_buf = c := by
  obtain ⟨r, hfind, hc1, hc2⟩ := hex
  have hbase := dxt_step_spec segSz fileSz s op hs hf hm0 hp hq
  refine ⟨hbase.1, lt_of_le_of_lt hbase.2.1 hm1, hbase.2.2.1, hbase.2.2.2, ?_⟩
  cases op with
  | pw k =>
    by_cases hk : k = id
    · subst hk
      have hnoop : dxt_posix_write segSz fileSz k s = s :=
        dxt_posix_write_frozen segSz fileSz k s r hs hm0 hm1 hp hfind
          (hc1.trans hc2.symm)
      refine ⟨r, ?_, hc1, hc2⟩
      simp only [dxt_step, hnoop]
      exact hfind
    · refine ⟨r, ?_, hc1, hc2⟩
      simp only [dxt_step]
      unfold dxt_posix_write
      by_cases hd : s.instr_disabled
      · simp only [if_pos hd]; exact hfind
      · simp only [if_neg hd]
        rw [findRec_table_write_ne segSz fileSz hk s.posix_recs
          s.dxt_mem_remaining]
        exact hfind
  | pr k =>
    by_cases hk : k = id
    · subst hk
      simp only [dxt_step]
      unfold dxt_posix_read
      by_cases hd : s.instr_disabled
      · simp only [if_pos hd]; exact ⟨r, hfind, hc1, hc2⟩
      · simp only [if_neg hd]
        obtain ⟨r', hr1, hr2, hr3⟩ := findRec_table_read_self segSz fileSz k
          s.posix_recs s.dxt_mem_remaining r hfind
        exact ⟨r', hr1, hr2.trans hc1, hr3.trans hc2⟩
    · refine ⟨r, ?_, hc1, hc2⟩
      simp only [dxt_step]
      unfold dxt_posix_read
      by_cases hd : s.instr_disabled
      · simp only [if_pos hd]; exact hfind
      · simp only [if_neg hd]
        rw [findRec_table_read_ne segSz fileSz hk s.posix_recs
          s.dxt_mem_remaining]
        exact hfind
  | mw k =>
    simp only [dxt_step]
    unfold dxt_mpiio_write
    by_cases hd : s.instr_disabled
    · simp only [if_pos hd]; exact ⟨r, hfind, hc1, hc2⟩
    · simp only [if_neg hd]; exact ⟨r, hfind, hc1, hc2⟩
  | mr k =>
    simp only [dxt_step]
    unfold dxt_mpiio_read
    by_cases hd : s.instr_disabled
    · simp only [if_pos hd]; exact ⟨r, hfind, hc1, hc2⟩
    · simp only [if_neg hd]; exact ⟨r, hfind, hc1, hc2⟩

/-- Any later trace sequence keeps the starved record's write count. -/
theorem dxt_run_frozen (segSz fileSz : ℤ) (id : ℕ) (c : ℤ)
    (hs : 0 < segSz) (hf : 0 ≤ fileSz) (ops : List dxt_op) :
    ∀ s : dxt_state, 0 ≤ s.dxt_mem_remaining → s.dxt_mem_remaining < segSz →
      recs_nonneg s.posix_recs → recs_nonneg s.mpiio_recs →
      (∃ r, findRec id s.posix_recs = some r
        ∧ r.write_count = c ∧ r.write_available_buf = c) →
      ∃ r', findRec id (dxt_run segSz fileSz ops s).posix_recs = some r'
        ∧ r'.write_count = c ∧ r'.write_available_buf = c := by
  induction ops with
  | nil => intro s _ _ _ _ hex; exact hex
  | cons op t ih =>
    intro s hm0 hm1 hp hq hex
    have hstep := dxt_step_frozen segSz fileSz id c op s hs hf hm0 hm1 hp hq hex
    exact ih _ hstep.1 hstep.2.1 hstep.2.2.1 hstep.2.2.2.1 hstep.2.2.2.2

/-- Claim C6: once the remaining budget is smaller than one `segment_info`
    (every growth request from then on is clamped to a zero increment)
    and a record's write buffer is exactly full, a `dxt_posix_write` on
    that record returns with the state completely unchanged — the
    segment is silently dropped — and under **any** later trace sequence
    the record's `write_count` never increases; instrumentation keeps
    running throughout. -/
theorem C6_starved_write_frozen (segSz fileSz : ℤ) (id : ℕ) (s : dxt_state)
    (r : dxt_file_rec) (hs : 0 < segSz) (hf : 0 ≤ fileSz)
    (hm0 : 0 ≤ s.dxt_mem_remaining) (hm1 : s.dxt_mem_remaining < segSz)
    (hp : recs_nonneg s.posix_recs) (hq : recs_nonneg s.mpiio_recs)
    (hfind : findRec id s.posix_recs = some r)
    (hfull : r.write_count = r.write_available_buf) :
    dxt_posix_write segSz fileSz id s = s
    ∧ ∀ ops : List dxt_op, ∃ r',
        findRec id (dxt_run segSz fileSz ops s).posix_recs = some r'
        ∧ r'.write_count = r.write_count := by
  refine ⟨dxt_posix_write_frozen segSz fileSz id s r hs hm0 hm1 hp hfind hfull, ?_⟩
  intro ops
  obtain ⟨r', h1, h2, _⟩ := dxt_run_frozen segSz fileSz id r.write_count hs hf
    ops s hm0 hm1 hp hq ⟨r, hfind, rfl, hfull.symm⟩
  exact ⟨r', h1, h2⟩

/-- Claim C6 witness: in the sample starved state (10 bytes left, 32-byte
    segments, record 1's write buffer full at 64), a write is a no-op
    and the write count stays 64 across a later write and read. -/
theorem C6_starved_write_frozen_witness :
    dxt_posix_write 32 48 1 sample_dxt_state = sample_dxt_state
    ∧ ∃ r', findRec 1 (dxt_run 32 48 [dxt_op.pw 1, dxt_op.pr 1]
        sample_dxt_state).posix_recs = some r'
      ∧ r'.write_count = 64 := by
  have h := C6_starved_write_frozen 32 48 1 sample_dxt_state sample_dxt_rec
    (by decide) (by decide) (by decide) (by decide)
    (by
      intro p hp
      have hp' : p = (1, sample_dxt_rec) := by
        simpa [sample_dxt_state] using hp
      subst hp'
      exact ⟨by decide, by decide⟩)
    (fun p hp => by cases hp) (by decide) (by decide)
  exact ⟨h.1, h.2 [dxt_op.pw 1, dxt_op.pr 1]⟩

end Darshan
